import Mathlib

/-!
Verification of the decode-normalize-batch-dispatch pipeline of
`hello-world/main.go` (`HandleRequest` and `indexBatchToOpenSearch`).

The Go program processes S3 upload events: for each event record it opens an
Avro OCF stream, decodes records (`map[string]interface{}`), normalizes each
record in place (unwrapping Avro tagged-union values and coercing six named
fields from string to float64), accumulates records in batches of 1000, and
POSTs each batch as an OpenSearch bulk payload.

Embedding choices:
* A decoded record is an association list `List (String × Value)` with
  pairwise-distinct keys (a Go map).  Go's map iteration order is
  unspecified; the embedding iterates in list order, and the main
  normalization theorem shows the result is pointwise (hence independent of
  the order).
* Field values are scalars or one-level mappings of scalars, which is the
  shape the Avro decoder produces for this schema (tagged-scalar unions).
* `float64` values are modelled exactly as a decimal mantissa and a power of
  ten, abstracting IEEE-754 rounding, which no claim depends on.
-/

set_option autoImplicit false

namespace OpenSearchProducts

/-- A concrete scalar value as produced by the Avro decoder
(`interface{}` holding a Go scalar).  A `float64` is modelled as
`m * 10 ^ e` (mantissa and decimal exponent), abstracting IEEE-754
rounding. -/
inductive Scalar where
  | sNull
  | sBool (b : Bool)
  | sLong (i : Int)
  | sDouble (m : Int) (e : Int)
  | sString (s : String)
  deriving DecidableEq, Repr

/-- A field value of a decoded record: either a concrete scalar or a
one-level mapping of scalars (the Avro tagged-union representation,
`map[string]interface{}` whose values are scalars). -/
inductive Value where
  | scalar (s : Scalar)
  | vMap (fields : List (String × Scalar))
  deriving DecidableEq, Repr

/-- A decoded record: a Go `map[string]interface{}`, embedded as an
association list with pairwise-distinct keys. -/
abbrev Record := List (String × Value)

/-- Go map read `r[k]`: the value at key `k`, if present. -/
def getField (r : Record) (k : String) : Option Value :=
  match r with
  | [] => none
  | (k', v) :: rest => if k' = k then some v else getField rest k

/-- Go map write `r[k] = v` for a key already present: replace the value at
`k`, keeping every other entry (and the embedding's entry order). -/
def setField (r : Record) (k : String) (v : Value) : Record :=
  match r with
  | [] => []
  | (k', v') :: rest =>
      if k' = k then (k', v) :: rest else (k', v') :: setField rest k v

/-- `valueMap["string"]` of the source, on the one-level mapping: the entry
named `"string"`, if any. -/
def lookupScalar (fields : List (String × Scalar)) (k : String) : Option Scalar :=
  match fields with
  | [] => none
  | (k', s) :: rest => if k' = k then some s else lookupScalar rest k

/-- Modelled from Go's `strconv`: the list of leading decimal digits of a
character list, together with the remainder. -/
def takeDigits : List Char → List Char × List Char
  | [] => ([], [])
  | c :: cs =>
      if c.isDigit then
        let (ds, rest) := takeDigits cs
        (c :: ds, rest)
      else ([], c :: cs)

/-- Numeric value of a list of decimal digits. -/
def digitsVal (ds : List Char) : Nat :=
  ds.foldl (fun n c => 10 * n + (c.toNat - 48)) 0

/-- Parse an optional sign, returning `1` or `-1` and the remainder. -/
def parseSign : List Char → Int × List Char
  | '+' :: cs => (1, cs)
  | '-' :: cs => (-1, cs)
  | cs => (1, cs)

/-- Parse the mantissa part: digits with an optional decimal point, at least
one digit in total.  Returns the mantissa digits' value and the number of
fractional digits. -/
def parseMantissa (cs : List Char) : Option (Nat × Nat × List Char) :=
  let (ip, r1) := takeDigits cs
  match r1 with
  | '.' :: r2 =>
      let (fp, r3) := takeDigits r2
      if ip.isEmpty ∧ fp.isEmpty then none
      else some (digitsVal (ip ++ fp), fp.length, r3)
  | _ => if ip.isEmpty then none else some (digitsVal ip, 0, r1)

/-- Parse an exponent part after `e`/`E`: optional sign, then at least one
digit. -/
def parseExponent (cs : List Char) : Option (Int × List Char) :=
  let (sg, r1) := parseSign cs
  let (ds, r2) := takeDigits r1
  if ds.isEmpty then none else some (sg * (digitsVal ds : Int), r2)

/-- Modelled from Go's `strconv.ParseFloat(s, 64)`, restricted to the decimal
forms (optional sign, digits with an optional decimal point and at least one
digit, optional `e`/`E` exponent); the special forms `Inf`/`NaN`, hex
mantissas, underscores and the float64 range check are abstracted away.  The
parsed value is returned exactly as a mantissa `m` and decimal exponent `e`
denoting `m * 10 ^ e`. -/
def parseFloat (s : String) : Option (Int × Int) :=
  let (sg, r0) := parseSign s.data
  match parseMantissa r0 with
  | none => none
  | some (m, frac, r1) =>
      match r1 with
      | 'e' :: r2 =>
          match parseExponent r2 with
          | some (ex, r3) => if r3.isEmpty then some (sg * m, ex - frac) else none
          | none => none
      | 'E' :: r2 =>
          match parseExponent r2 with
          | some (ex, r3) => if r3.isEmpty then some (sg * m, ex - frac) else none
          | none => none
      | [] => some (sg * m, -(frac : Int))
      | _ => none

/-- The six field names the source coerces with `strconv.ParseFloat`
(`main.go` lines 80-132). -/
def coercionFields : List String :=
  ["totalSales", "maxPrice", "fansIncRate", "avgViewDuration", "avgSalePrice",
   "salesTransRate"]

/-- One unwrap step of the source (lines 74-78), as a function on the value:
if the value is a mapping whose `"string"` entry holds a string, replace the
value by that string; otherwise leave it unchanged. -/
def unwrapValue : Value → Value
  | .vMap fields =>
      match lookupScalar fields "string" with
      | some (.sString sv) => .scalar (.sString sv)
      | _ => .vMap fields
  | v => v

/-- One coercion step of the source (e.g. lines 81-87), as a function on the
value: if the value is a string that `parseFloat` accepts, replace it by the
parsed float64; otherwise leave it unchanged. -/
def coerceValue (v : Value) : Value :=
  match v with
  | .scalar (.sString s) =>
      match parseFloat s with
      | some (m, e) => .scalar (.sDouble m e)
      | none => v
  | _ => v

/-- Lines 74-78 of the source acting on the whole record: unwrap the value
stored at key `k` (a no-op when `k` is absent or its value is not a
`"string"`-tagged mapping). -/
def unwrapAt (r : Record) (k : String) : Record :=
  match getField r k with
  | some (.vMap fields) =>
      match lookupScalar fields "string" with
      | some (.sString sv) => setField r k (.scalar (.sString sv))
      | _ => r
  | _ => r

/-- One named-field coercion block of the source (e.g. lines 81-87) acting on
the whole record: if `r[k]` is a string that parses as a float64, store the
parsed number at `k`; otherwise leave the record unchanged. -/
def coerceField (r : Record) (k : String) : Record :=
  match getField r k with
  | some (.scalar (.sString s)) =>
      match parseFloat s with
      | some (m, e) => setField r k (.scalar (.sDouble m e))
      | none => r
  | _ => r

/-- The body of `for key, value := range rawDatum` (lines 72-134): unwrap the
currently visited key, then run the six named-field coercion blocks. -/
def normStep (r : Record) (k : String) : Record :=
  coercionFields.foldl coerceField (unwrapAt r k)

/-- The whole normalization loop of `HandleRequest` (lines 72-134): run
`normStep` once for every key of the record.  The embedding visits keys in
entry order; `normalizeRecord_eq_map` shows the result is pointwise in the
record, hence independent of the visiting order Go actually uses. -/
def normalizeRecord (r : Record) : Record :=
  (r.map Prod.fst).foldl normStep r

/-- The pointwise effect of normalization on the field named `k`: unwrap the
tagged scalar, then coerce when `k` is one of the six coerced field names. -/
def normalizeValue (k : String) (v : Value) : Value :=
  if k ∈ coercionFields then coerceValue (unwrapValue v) else unwrapValue v

/-- Apply a key-dependent function to every value of a record, keeping keys
and order. -/
def mapVals (f : String → Value → Value) (r : Record) : Record :=
  r.map fun p => (p.1, f p.1 p.2)

/-- Coerce the value when the field name is one of the six coerced names;
proof-internal shorthand for the pointwise coercion effect. -/
def coerceIfIn (k : String) (v : Value) : Value :=
  if k ∈ coercionFields then coerceValue v else v

/-- Recognized by the unwrap rule of the source (lines 74-78): a mapping
whose `"string"` entry holds a string. -/
def isTaggedString : Value → Bool
  | .vMap fields =>
      match lookupScalar fields "string" with
      | some (.sString _) => true
      | _ => false
  | _ => false

/-- Split a byte string at newline characters (used only to state the line
structure of rendered payloads); a trailing newline yields a trailing empty
line. -/
def splitNL : List Char → List (List Char)
  | [] => [[]]
  | c :: cs =>
      if c = '\n' then [] :: splitNL cs
      else
        match splitNL cs with
        | [] => [[c]]
        | l :: ls => (c :: l) :: ls

/-! ### The JSON renderer (`indexBatchToOpenSearch`, lines 163-175)

Modelled from Go `encoding/json.Marshal` on the decoded records: a compact
(whitespace-free) one-line encoding.  Go additionally sorts map keys, escapes
`<`, `>`, `&` and invalid UTF-8, and prints float64 in shortest-roundtrip
form; the embedding keeps the record's entry order, escapes the JSON
control/quote characters, and prints the modelled mantissa/exponent pair —
abstractions none of the claims depend on.  Payloads are byte strings,
embedded as `List Char`. -/

/-- The decimal digit characters. -/
def digitChar (d : Nat) : Char :=
  match d with
  | 0 => '0' | 1 => '1' | 2 => '2' | 3 => '3' | 4 => '4'
  | 5 => '5' | 6 => '6' | 7 => '7' | 8 => '8' | _ => '9'

/-- Decimal rendering of a natural number. -/
def natToChars (n : Nat) : List Char :=
  if n < 10 then [digitChar n]
  else natToChars (n / 10) ++ [digitChar (n % 10)]
termination_by n
decreasing_by exact Nat.div_lt_self (by omega) (by omega)

/-- Decimal rendering of an integer. -/
def intToChars (i : Int) : List Char :=
  if i < 0 then '-' :: natToChars i.natAbs else natToChars i.toNat

/-- JSON string escaping of one character (model of `encoding/json`). -/
def escapeChar (c : Char) : List Char :=
  if c = '"' then ['\\', '"']
  else if c = '\\' then ['\\', '\\']
  else if c = '\n' then ['\\', 'n']
  else if c = '\r' then ['\\', 'r']
  else if c = '\t' then ['\\', 't']
  else if c.toNat < 32 then
    ['\\', 'u', '0', '0', digitChar (c.toNat / 16), digitChar (c.toNat % 16)]
  else [c]

/-- A JSON string literal: the escaped characters between double quotes. -/
def quoteString (s : String) : List Char :=
  '"' :: (s.data.map escapeChar).flatten ++ ['"']

/-- JSON encoding of a scalar.  A modelled float64 `m * 10 ^ e` prints as
`<m>e<e>`. -/
def encodeScalar : Scalar → List Char
  | .sNull => "null".data
  | .sBool true => "true".data
  | .sBool false => "false".data
  | .sLong i => intToChars i
  | .sDouble m e => intToChars m ++ 'e' :: intToChars e
  | .sString s => quoteString s

/-- JSON encoding of the entries of a one-level scalar mapping, comma
separated. -/
def encodeScalarFields : List (String × Scalar) → List Char
  | [] => []
  | [(k, s)] => quoteString k ++ ':' :: encodeScalar s
  | (k, s) :: rest => quoteString k ++ ':' :: encodeScalar s ++ ',' :: encodeScalarFields rest

/-- JSON encoding of a field value. -/
def encodeValue : Value → List Char
  | .scalar s => encodeScalar s
  | .vMap fields => '{' :: encodeScalarFields fields ++ ['}']

/-- JSON encoding of the entries of a record, comma separated. -/
def encodeRecordFields : List (String × Value) → List Char
  | [] => []
  | [(k, v)] => quoteString k ++ ':' :: encodeValue v
  | (k, v) :: rest => quoteString k ++ ':' :: encodeValue v ++ ',' :: encodeRecordFields rest

/-- JSON encoding of a whole record (`json.Marshal(data)`, line 172). -/
def encodeRecord (r : Record) : List Char :=
  '{' :: encodeRecordFields r ++ ['}']

/-- The bulk action-descriptor line (`json.Marshal(metaData)`, lines 165-168):
the encoding of `{"index": {"_index": "live"}}`. -/
def metaLine : List Char :=
  encodeRecord [("index", .vMap [("_index", .sString "live")])]

/-- The bulk payload built by `indexBatchToOpenSearch` (lines 163-175): for
each record of the batch, in order, the action-descriptor line, a newline,
the record's document line, and a newline, all appended to one buffer. -/
def renderBatch (batch : List Record) : List Char :=
  batch.foldl (fun buf r => buf ++ metaLine ++ '\n' :: encodeRecord r ++ ['\n']) []

/-! ### The bulk dispatcher (`indexBatchToOpenSearch`, lines 177-199) -/

/-- The outcome of the one HTTP POST (`client.Do(req)`): either a
transport-level failure with its message, or a response with its numeric
status code and status text. -/
inductive HTTPOutcome where
  | transportErr (msg : String)
  | response (status : Nat) (statusText : String)
  deriving DecidableEq, Repr

/-- Lines 189-199 of the source: a transport failure and any non-200 status
become error values (with the cause, resp. the status text, in the message);
a 200 response yields success. -/
def classifyDispatch : HTTPOutcome → Except String Unit
  | .transportErr msg =>
      .error ("error sending bulk request to OpenSearch: " ++ msg)
  | .response status statusText =>
      if status ≠ 200 then
        .error ("error response from OpenSearch: " ++ statusText)
      else .ok ()

/-- `indexBatchToOpenSearch` (lines 156-200): render the batch, perform one
HTTP POST of the payload (the transport is the collaborator `send`), and
classify the outcome.  Headers and Basic-Auth credentials do not influence
any claim and are absorbed into `send`. -/
def indexBatchToOpenSearch (send : List Char → HTTPOutcome)
    (batchData : List Record) : Except String Unit :=
  classifyDispatch (send (renderBatch batchData))

/-! ### The per-file scan loop and the handler (lines 21-154) -/

/-- One pull of the Avro OCF reader inside `for ocfr.Scan()`: a per-record
decode failure (`ocfr.Read()` returns an error, line 58), a datum that is not
a `map[string]interface{}` (the type assertion on line 65 fails), or a
decoded record. -/
inductive ScanItem where
  | readErr
  | nonRecord
  | record (r : Record)

/-- One S3 upload-event record as the handler sees it: fetching the object
fails (line 42), creating the OCF reader fails (line 50), or the object opens
into a stream of scan results. -/
inductive FileEvent where
  | fetchErr
  | ocfErr
  | file (items : List ScanItem)

/-- The per-file loop of `HandleRequest` (lines 54-151): skip malformed
records, normalize and append good ones, dispatch and reset the batch at
1000, and dispatch the nonempty remainder after the stream ends.  Returns
the dispatched batches with their dispatch results, in dispatch order; a
dispatch error is only printed by the source, so processing continues
regardless of the result. -/
def processFile (send : List Char → HTTPOutcome) :
    List ScanItem → List Record → List (List Record × Except String Unit)
  | [], batchData =>
      if 0 < batchData.length then
        [(batchData, indexBatchToOpenSearch send batchData)]
      else []
  | .readErr :: rest, batchData => processFile send rest batchData
  | .nonRecord :: rest, batchData => processFile send rest batchData
  | .record r :: rest, batchData =>
      let b := batchData ++ [normalizeRecord r]
      if 1000 ≤ b.length then
        (b, indexBatchToOpenSearch send b) :: processFile send rest []
      else processFile send rest b

/-- `HandleRequest` (lines 21-154): process the upload-event records in
order, each with a fresh empty batch; a fetch or OCF-reader failure returns
from the whole handler (lines 44 and 52), abandoning the remaining events.
Returns all dispatched batches with their results, in dispatch order. -/
def HandleRequest (send : List Char → HTTPOutcome) :
    List FileEvent → List (List Record × Except String Unit)
  | [] => []
  | .fetchErr :: _ => []
  | .ocfErr :: _ => []
  | .file items :: rest => processFile send items [] ++ HandleRequest send rest

/-- The records a file's scan stream successfully decodes, normalized, in
stream order: exactly the records the loop appends to batches. -/
def decodedRecords (items : List ScanItem) : List Record :=
  items.filterMap fun i =>
    match i with
    | .record r => some (normalizeRecord r)
    | _ => none

/-- Consecutive chunks of 1000: all full chunks, then the nonempty
remainder, if any. -/
def chunks1000 {α : Type} : List α → List (List α)
  | [] => []
  | x :: xs => ((x :: xs).take 1000) :: chunks1000 ((x :: xs).drop 1000)
termination_by l => l.length
decreasing_by simp [List.length_drop]; omega

/-! ### Basic association-list lemmas -/

theorem mapVals_fst (f : String → Value → Value) (r : Record) :
    (mapVals f r).map Prod.fst = r.map Prod.fst := by
  simp [mapVals, Function.comp]

theorem mapVals_mapVals (f g : String → Value → Value) (r : Record) :
    mapVals f (mapVals g r) = mapVals (fun k v => f k (g k v)) r := by
  simp [mapVals, Function.comp]

theorem mapVals_id (r : Record) : mapVals (fun _ v => v) r = r := by
  simp [mapVals]

theorem getField_eq_none (r : Record) (k : String) :
    getField r k = none ↔ k ∉ r.map Prod.fst := by
  induction r with
  | nil => simp [getField]
  | cons p rest ih =>
      obtain ⟨k', v⟩ := p
      by_cases h : k' = k
      · subst h; simp [getField]
      · have h' : ¬ k = k' := fun e => h e.symm
        simp [getField, h, ih, h']

theorem getField_of_mem {r : Record} {k : String} {v : Value}
    (hn : (r.map Prod.fst).Nodup) (hm : (k, v) ∈ r) : getField r k = some v := by
  induction r with
  | nil => simp at hm
  | cons p rest ih =>
      obtain ⟨k', v'⟩ := p
      simp only [List.map_cons, List.nodup_cons] at hn
      rcases List.mem_cons.mp hm with h | h
      · injection h with h1 h2
        subst h1; subst h2
        simp [getField]
      · have hne : k' ≠ k := by
          rintro rfl
          exact hn.1 (List.mem_map.mpr ⟨(k', v), h, rfl⟩)
        simp [getField, hne, ih hn.2 h]

theorem setField_self {r : Record} {k : String} {v : Value}
    (h : getField r k = some v) : setField r k v = r := by
  induction r with
  | nil => rfl
  | cons p rest ih =>
      obtain ⟨k', v'⟩ := p
      by_cases hk : k' = k
      · simp [getField, hk] at h
        simp [setField, hk, h]
      · simp [getField, hk] at h
        simp [setField, hk, ih h]

theorem setField_eq_map {r : Record} (k : String) (w : Value)
    (hn : (r.map Prod.fst).Nodup) :
    setField r k w = r.map fun p => if p.1 = k then (p.1, w) else p := by
  induction r with
  | nil => rfl
  | cons p rest ih =>
      obtain ⟨k', v'⟩ := p
      simp only [List.map_cons, List.nodup_cons] at hn
      by_cases hk : k' = k
      · subst hk
        have hrest : (rest.map fun p => if p.1 = k' then (p.1, w) else p) = rest := by
          conv_rhs => rw [← List.map_id rest]
          apply List.map_congr_left
          intro p hp
          have hne : p.1 ≠ k' := by
            rintro h
            exact hn.1 (List.mem_map.mpr ⟨p, hp, h⟩)
          simp [hne]
        simp [setField, hrest]
      · simp [setField, hk, ih hn.2]

theorem setField_fst (r : Record) (k : String) (v : Value) :
    (setField r k v).map Prod.fst = r.map Prod.fst := by
  induction r with
  | nil => rfl
  | cons p rest ih =>
      obtain ⟨k', v'⟩ := p
      by_cases h : k' = k <;> simp [setField, h, ih]

theorem mapVals_eq_self {r : Record} {f : String → Value → Value}
    (h : ∀ p ∈ r, f p.1 p.2 = p.2) : mapVals f r = r := by
  unfold mapVals
  conv_rhs => rw [← List.map_id r]
  apply List.map_congr_left
  intro p hp
  simp [h p hp]

/-! ### Value-level facts about unwrapping and coercion -/

theorem unwrapValue_scalar (s : Scalar) : unwrapValue (.scalar s) = .scalar s := rfl

theorem coerceValue_vMap (fs : List (String × Scalar)) :
    coerceValue (.vMap fs) = .vMap fs := rfl

theorem coerceValue_scalar (s : Scalar) :
    ∃ s', coerceValue (.scalar s) = .scalar s' := by
  cases s with
  | sString str =>
      rcases h : parseFloat str with _ | ⟨m, e⟩
      · exact ⟨.sString str, by simp [coerceValue, h]⟩
      · exact ⟨.sDouble m e, by simp [coerceValue, h]⟩
  | sNull => exact ⟨_, rfl⟩
  | sBool b => exact ⟨_, rfl⟩
  | sLong i => exact ⟨_, rfl⟩
  | sDouble m e => exact ⟨_, rfl⟩

theorem coerceValue_idem (v : Value) : coerceValue (coerceValue v) = coerceValue v := by
  cases v with
  | vMap fs => rfl
  | scalar s =>
      cases s with
      | sString str =>
          rcases h : parseFloat str with _ | ⟨m, e⟩ <;> simp [coerceValue, h]
      | sNull => rfl
      | sBool b => rfl
      | sLong i => rfl
      | sDouble m e => rfl

theorem coerceIfIn_idem (k : String) (v : Value) :
    coerceIfIn k (coerceIfIn k v) = coerceIfIn k v := by
  by_cases h : k ∈ coercionFields <;> simp [coerceIfIn, h, coerceValue_idem]

theorem coerceIfIn_vMap (k : String) (fs : List (String × Scalar)) :
    coerceIfIn k (.vMap fs) = .vMap fs := by
  by_cases h : k ∈ coercionFields <;> simp [coerceIfIn, h, coerceValue_vMap]

theorem coerceIfIn_scalar (k : String) (s : Scalar) :
    ∃ s', coerceIfIn k (.scalar s) = .scalar s' := by
  by_cases h : k ∈ coercionFields
  · obtain ⟨s', hs⟩ := coerceValue_scalar s
    exact ⟨s', by simp [coerceIfIn, h, hs]⟩
  · exact ⟨s, by simp [coerceIfIn, h]⟩

theorem unwrap_coerceIfIn (k : String) (v : Value) :
    coerceIfIn k (unwrapValue (coerceIfIn k v)) = coerceIfIn k (unwrapValue v) := by
  cases v with
  | vMap fs => rw [coerceIfIn_vMap]
  | scalar s =>
      obtain ⟨s', hs⟩ := coerceIfIn_scalar k s
      rw [hs, unwrapValue_scalar, ← hs, coerceIfIn_idem, unwrapValue_scalar]

theorem normalizeValue_eq (k : String) (v : Value) :
    normalizeValue k v = coerceIfIn k (unwrapValue v) := rfl

/-! ### The record-level update steps are pointwise maps -/

theorem unwrapAt_set {r : Record} {k : String} {v : Value}
    (h : getField r k = some v) :
    unwrapAt r k = setField r k (unwrapValue v) := by
  unfold unwrapAt
  rw [h]
  cases v with
  | scalar s => simpa [unwrapValue] using (setField_self h).symm
  | vMap fs =>
      rcases hl : lookupScalar fs "string" with _ | s
      · simpa [unwrapValue, hl] using (setField_self h).symm
      · cases s with
        | sString sv => simp [unwrapValue, hl]
        | sNull => simpa [unwrapValue, hl] using (setField_self h).symm
        | sBool b => simpa [unwrapValue, hl] using (setField_self h).symm
        | sLong i => simpa [unwrapValue, hl] using (setField_self h).symm
        | sDouble m e => simpa [unwrapValue, hl] using (setField_self h).symm

theorem coerceField_set {r : Record} {k : String} {v : Value}
    (h : getField r k = some v) :
    coerceField r k = setField r k (coerceValue v) := by
  unfold coerceField
  rw [h]
  cases v with
  | vMap fs => simpa [coerceValue] using (setField_self h).symm
  | scalar s =>
      cases s with
      | sString str =>
          rcases hp : parseFloat str with _ | ⟨m, e⟩
          · simpa [coerceValue, hp] using (setField_self h).symm
          · simp [coerceValue, hp]
      | sNull => simpa [coerceValue] using (setField_self h).symm
      | sBool b => simpa [coerceValue] using (setField_self h).symm
      | sLong i => simpa [coerceValue] using (setField_self h).symm
      | sDouble m e => simpa [coerceValue] using (setField_self h).symm

theorem setField_apply_eq_map {r : Record} {k : String} {v : Value} (g : Value → Value)
    (hn : (r.map Prod.fst).Nodup) (h : getField r k = some v) :
    setField r k (g v) = mapVals (fun k' w => if k' = k then g w else w) r := by
  rw [setField_eq_map k (g v) hn]
  unfold mapVals
  apply List.map_congr_left
  intro p hp
  by_cases hp1 : p.1 = k
  · have hm : (p.1, p.2) ∈ r := by simpa using hp
    have h2 := getField_of_mem hn (hp1 ▸ hm)
    rw [h] at h2
    injection h2 with h3
    simp [hp1, h3]
  · simp [hp1]

theorem mapVals_point_absent {r : Record} {k : String} (g : Value → Value)
    (h : getField r k = none) :
    mapVals (fun k' w => if k' = k then g w else w) r = r := by
  have hk : k ∉ r.map Prod.fst := (getField_eq_none r k).mp h
  apply mapVals_eq_self
  intro p hp
  have hne : p.1 ≠ k := fun e => hk (List.mem_map.mpr ⟨p, hp, e⟩)
  simp [hne]

theorem unwrapAt_eq_map (r : Record) (k : String) (hn : (r.map Prod.fst).Nodup) :
    unwrapAt r k = mapVals (fun k' v => if k' = k then unwrapValue v else v) r := by
  rcases h : getField r k with _ | v
  · rw [mapVals_point_absent _ h]
    unfold unwrapAt
    rw [h]
  · rw [unwrapAt_set h, setField_apply_eq_map _ hn h]

theorem coerceField_eq_map (r : Record) (k : String) (hn : (r.map Prod.fst).Nodup) :
    coerceField r k = mapVals (fun k' v => if k' = k then coerceValue v else v) r := by
  rcases h : getField r k with _ | v
  · rw [mapVals_point_absent _ h]
    unfold coerceField
    rw [h]
  · rw [coerceField_set h, setField_apply_eq_map _ hn h]

theorem unwrapAt_fst (r : Record) (k : String) :
    (unwrapAt r k).map Prod.fst = r.map Prod.fst := by
  unfold unwrapAt
  split
  · split
    · apply setField_fst
    · rfl
  · rfl

theorem coerceField_fst (r : Record) (k : String) :
    (coerceField r k).map Prod.fst = r.map Prod.fst := by
  unfold coerceField
  split
  · split
    · apply setField_fst
    · rfl
  · rfl

/-! ### The normalization loop is a pointwise map -/

theorem foldl_coerceField (ns : List String) (r : Record)
    (hn : (r.map Prod.fst).Nodup) :
    ns.foldl coerceField r =
      mapVals (fun k' v =>
        ns.foldl (fun w n => if k' = n then coerceValue w else w) v) r := by
  induction ns generalizing r with
  | nil =>
      simp only [List.foldl_nil]
      exact (mapVals_eq_self fun p _ => rfl).symm
  | cons n ns ih =>
      rw [List.foldl_cons,
        ih (coerceField r n) ((coerceField_fst r n).symm ▸ hn),
        coerceField_eq_map r n hn, mapVals_mapVals]
      rfl

theorem foldl_point_coerce (k' : String) (ns : List String) (v : Value) :
    ns.foldl (fun w n => if k' = n then coerceValue w else w) v =
      if k' ∈ ns then coerceValue v else v := by
  induction ns generalizing v with
  | nil => simp
  | cons n ns ih =>
      by_cases h : k' = n
      · subst h
        rw [List.foldl_cons, if_pos rfl, ih, if_pos (List.mem_cons_self k' ns)]
        split <;> simp [coerceValue_idem]
      · rw [List.foldl_cons, if_neg h, ih]
        simp [List.mem_cons, h]

theorem normStep_point (r : Record) (k : String) (hn : (r.map Prod.fst).Nodup) :
    normStep r k =
      mapVals (fun k' v => coerceIfIn k' (if k' = k then unwrapValue v else v)) r := by
  unfold normStep
  rw [foldl_coerceField coercionFields (unwrapAt r k) ((unwrapAt_fst r k).symm ▸ hn),
    unwrapAt_eq_map r k hn, mapVals_mapVals]
  unfold mapVals
  apply List.map_congr_left
  intro p hp
  dsimp only
  rw [foldl_point_coerce]
  rfl

theorem normStep_fst (r : Record) (k : String) (hn : (r.map Prod.fst).Nodup) :
    (normStep r k).map Prod.fst = r.map Prod.fst := by
  rw [normStep_point r k hn, mapVals_fst]

theorem foldl_normStep (ks : List String) (r : Record)
    (hn : (r.map Prod.fst).Nodup) :
    ks.foldl normStep r =
      mapVals (fun k' v =>
        ks.foldl (fun w k => coerceIfIn k' (if k' = k then unwrapValue w else w)) v) r := by
  induction ks generalizing r with
  | nil =>
      simp only [List.foldl_nil]
      exact (mapVals_eq_self fun p _ => rfl).symm
  | cons k ks ih =>
      rw [List.foldl_cons, ih (normStep r k) ((normStep_fst r k hn).symm ▸ hn),
        normStep_point r k hn, mapVals_mapVals]
      rfl

theorem perKey_fixed (k' : String) (ks : List String) (hks : k' ∉ ks) (v : Value) :
    ks.foldl (fun w k => coerceIfIn k' (if k' = k then unwrapValue w else w))
      (coerceIfIn k' v) = coerceIfIn k' v := by
  induction ks with
  | nil => rfl
  | cons k ks ih =>
      simp only [List.mem_cons, not_or] at hks
      rw [List.foldl_cons, if_neg hks.1, coerceIfIn_idem, ih hks.2]

theorem perKey_phase1 (k' : String) (a : List String) (ha : k' ∉ a) (v : Value) :
    a.foldl (fun w k => coerceIfIn k' (if k' = k then unwrapValue w else w)) v =
      if a.isEmpty then v else coerceIfIn k' v := by
  induction a with
  | nil => rfl
  | cons k a ih =>
      simp only [List.mem_cons, not_or] at ha
      rw [List.foldl_cons, if_neg ha.1, perKey_fixed k' a ha.2 v]
      rfl

theorem perKey_eval (k' : String) (a b : List String) (ha : k' ∉ a) (hb : k' ∉ b)
    (v : Value) :
    (a ++ k' :: b).foldl
      (fun w k => coerceIfIn k' (if k' = k then unwrapValue w else w)) v =
      coerceIfIn k' (unwrapValue v) := by
  rw [List.foldl_append, perKey_phase1 k' a ha v]
  by_cases he : a.isEmpty
  · rw [if_pos he, List.foldl_cons, if_pos rfl]
    exact perKey_fixed k' b hb (unwrapValue v)
  · rw [if_neg he, List.foldl_cons, if_pos rfl, unwrap_coerceIfIn]
    exact perKey_fixed k' b hb (unwrapValue v)

/-- **Main normalization theorem**: the in-place loop of `HandleRequest`
(lines 72-134) acts pointwise on a record with distinct keys — every field
named `k` with value `v` ends up holding `normalizeValue k v`, and keys and
entry order are untouched.  In particular the result does not depend on the
order in which Go happens to iterate the map. -/
theorem normalizeRecord_eq_map (r : Record) (hn : (r.map Prod.fst).Nodup) :
    normalizeRecord r = mapVals normalizeValue r := by
  unfold normalizeRecord
  rw [foldl_normStep (r.map Prod.fst) r hn]
  unfold mapVals
  apply List.map_congr_left
  intro p hp
  obtain ⟨r1, r2, rfl⟩ := List.append_of_mem hp
  have hks : (r1 ++ p :: r2).map Prod.fst
      = r1.map Prod.fst ++ p.1 :: r2.map Prod.fst := by simp
  rw [hks] at hn ⊢
  rw [List.nodup_append] at hn
  obtain ⟨h1, h2, h3⟩ := hn
  rw [List.nodup_cons] at h2
  have ha : p.1 ∉ r1.map Prod.fst :=
    fun hm => h3 hm (List.mem_cons_self p.1 (r2.map Prod.fst))
  dsimp only
  rw [perKey_eval p.1 (r1.map Prod.fst) (r2.map Prod.fst) ha h2.1 p.2]
  rfl

theorem normalizeRecord_fst (r : Record) (hn : (r.map Prod.fst).Nodup) :
    (normalizeRecord r).map Prod.fst = r.map Prod.fst := by
  rw [normalizeRecord_eq_map r hn, mapVals_fst]

/-! ### Batching lemmas -/

theorem chunks1000_nil {α : Type} : chunks1000 ([] : List α) = [] := by
  simp [chunks1000]

theorem chunks1000_eq {α : Type} (l : List α) (hne : l ≠ []) :
    chunks1000 l = l.take 1000 :: chunks1000 (l.drop 1000) := by
  cases l with
  | nil => cases hne rfl
  | cons x xs => rw [chunks1000]

theorem chunks1000_small {α : Type} (l : List α) (h0 : l ≠ [])
    (h : l.length < 1000) : chunks1000 l = [l] := by
  rw [chunks1000_eq l h0, List.take_of_length_le (by omega),
    List.drop_eq_nil_of_le (by omega), chunks1000_nil]

theorem chunks1000_full {α : Type} (B rest : List α) (hB : B.length = 1000) :
    chunks1000 (B ++ rest) = B :: chunks1000 rest := by
  have hne : B ++ rest ≠ [] := by
    cases B with
    | nil => simp at hB
    | cons x xs => simp
  rw [chunks1000_eq _ hne]
  congr 1
  · rw [← hB]
    exact List.take_left B rest
  · congr 1
    rw [← hB]
    exact List.drop_left B rest

/-- The per-file loop dispatches exactly the 1000-chunks of the pending
batch followed by the file's decoded records. -/
theorem processFile_batches (send : List Char → HTTPOutcome) (items : List ScanItem)
    (b : List Record) (hb : b.length < 1000) :
    (processFile send items b).map Prod.fst = chunks1000 (b ++ decodedRecords items) := by
  induction items generalizing b with
  | nil =>
      simp only [processFile, decodedRecords, List.filterMap_nil, List.append_nil]
      by_cases h0 : 0 < b.length
      · rw [if_pos h0, chunks1000_small b (by cases b <;> simp_all) (by omega)]
        rfl
      · rw [if_neg h0]
        have hb0 : b = [] := by cases b <;> simp_all
        rw [hb0, chunks1000_nil]
        rfl
  | cons i rest ih =>
      cases i with
      | readErr =>
          show (processFile send rest b).map Prod.fst = _
          rw [ih b hb]
          rfl
      | nonRecord =>
          show (processFile send rest b).map Prod.fst = _
          rw [ih b hb]
          rfl
      | record r =>
          have hd : decodedRecords (ScanItem.record r :: rest)
              = normalizeRecord r :: decodedRecords rest := by simp [decodedRecords]
          rw [hd]
          have hassoc : b ++ normalizeRecord r :: decodedRecords rest
              = (b ++ [normalizeRecord r]) ++ decodedRecords rest := by simp
          rw [hassoc]
          simp only [processFile]
          by_cases h1 : 1000 ≤ (b ++ [normalizeRecord r]).length
          · rw [if_pos h1]
            have hlen : (b ++ [normalizeRecord r]).length = 1000 := by
              simp only [List.length_append, List.length_cons, List.length_nil] at h1 ⊢
              omega
            rw [chunks1000_full _ _ hlen, List.map_cons, ih [] (by simp)]
            rfl
          · rw [if_neg h1]
            have h1' : (b ++ [normalizeRecord r]).length < 1000 := by omega
            exact ih (b ++ [normalizeRecord r]) h1'

theorem map_range_succ {β : Type} (f : Nat → β) (n : Nat) :
    (List.range (n + 1)).map f = f 0 :: (List.range n).map fun i => f (i + 1) := by
  rw [List.range_succ_eq_map, List.map_cons, List.map_map]
  rfl

/-- Closed form of `chunks1000`: the `length / 1000` full chunks, then the
`length % 1000` leftover elements when there are any. -/
theorem chunks1000_closed_aux {α : Type} :
    ∀ (n : Nat) (l : List α), l.length ≤ n →
      chunks1000 l =
        ((List.range (l.length / 1000)).map fun i => (l.drop (1000 * i)).take 1000)
          ++ (if l.length % 1000 = 0 then []
              else [l.drop (1000 * (l.length / 1000))]) := by
  intro n
  induction n with
  | zero =>
      intro l hl
      have h : l = [] := List.eq_nil_of_length_eq_zero (by omega)
      subst h
      simp [chunks1000_nil]
  | succ n ih =>
      intro l hl
      by_cases hnil : l = []
      · subst hnil
        simp [chunks1000_nil]
      · have hpos : 0 < l.length := by cases l <;> simp_all
        by_cases hsmall : l.length < 1000
        · rw [chunks1000_small l hnil hsmall]
          have h0 : l.length / 1000 = 0 := by omega
          have hm : l.length % 1000 ≠ 0 := by omega
          rw [h0, if_neg hm]
          simp
        · push_neg at hsmall
          rw [chunks1000_eq l hnil]
          have hdl : (l.drop 1000).length = l.length - 1000 := by simp
          rw [ih (l.drop 1000) (by omega), hdl]
          have hq : l.length / 1000 = (l.length - 1000) / 1000 + 1 := by omega
          have hc : (l.length - 1000) % 1000 = l.length % 1000 := by omega
          rw [hq, hc, map_range_succ, List.cons_append]
          have hhead : (l.drop (1000 * 0)).take 1000 = l.take 1000 := by
            rw [Nat.mul_zero, List.drop_zero]
          have hmap : ∀ i ∈ List.range ((l.length - 1000) / 1000),
              (l.drop (1000 * (i + 1))).take 1000
                = ((l.drop 1000).drop (1000 * i)).take 1000 := by
            intro i hi
            rw [List.drop_drop]
            have he : 1000 + 1000 * i = 1000 * (i + 1) := by ring
            rw [he]
          have htail : l.drop (1000 * ((l.length - 1000) / 1000 + 1))
              = (l.drop 1000).drop (1000 * ((l.length - 1000) / 1000)) := by
            rw [List.drop_drop]
            have he : 1000 + 1000 * ((l.length - 1000) / 1000)
                = 1000 * ((l.length - 1000) / 1000 + 1) := by ring
            rw [he]
          rw [List.map_congr_left hmap, htail, hhead]

theorem chunks1000_closed {α : Type} (l : List α) :
    chunks1000 l =
      ((List.range (l.length / 1000)).map fun i => (l.drop (1000 * i)).take 1000)
        ++ (if l.length % 1000 = 0 then []
            else [l.drop (1000 * (l.length / 1000))]) :=
  chunks1000_closed_aux l.length l (le_refl _)

/-! ### Normalization: field-level lookup and idempotence lemmas -/

theorem getField_mapVals {r : Record} {k : String} {v : Value}
    (f : String → Value → Value) (hn : (r.map Prod.fst).Nodup)
    (hm : (k, v) ∈ r) : getField (mapVals f r) k = some (f k v) := by
  apply getField_of_mem
  · rw [mapVals_fst]
    exact hn
  · exact List.mem_map.mpr ⟨(k, v), hm, rfl⟩

theorem isTaggedString_normalizeValue (k : String) (v : Value) :
    isTaggedString (normalizeValue k v) = false := by
  rw [normalizeValue_eq]
  cases v with
  | scalar s =>
      rw [unwrapValue_scalar]
      obtain ⟨s', hs⟩ := coerceIfIn_scalar k s
      rw [hs]
      rfl
  | vMap fs =>
      rcases hl : lookupScalar fs "string" with _ | s
      · rw [show unwrapValue (.vMap fs) = .vMap fs by simp [unwrapValue, hl],
          coerceIfIn_vMap]
        simp [isTaggedString, hl]
      · cases s with
        | sString sv =>
            rw [show unwrapValue (.vMap fs) = .scalar (.sString sv) by
              simp [unwrapValue, hl]]
            obtain ⟨s', hs⟩ := coerceIfIn_scalar k (.sString sv)
            rw [hs]
            rfl
        | sNull =>
            rw [show unwrapValue (.vMap fs) = .vMap fs by simp [unwrapValue, hl],
              coerceIfIn_vMap]
            simp [isTaggedString, hl]
        | sBool b =>
            rw [show unwrapValue (.vMap fs) = .vMap fs by simp [unwrapValue, hl],
              coerceIfIn_vMap]
            simp [isTaggedString, hl]
        | sLong i =>
            rw [show unwrapValue (.vMap fs) = .vMap fs by simp [unwrapValue, hl],
              coerceIfIn_vMap]
            simp [isTaggedString, hl]
        | sDouble m e =>
            rw [show unwrapValue (.vMap fs) = .vMap fs by simp [unwrapValue, hl],
              coerceIfIn_vMap]
            simp [isTaggedString, hl]

theorem unwrapValue_of_not_tagged {v : Value} (h : isTaggedString v = false) :
    unwrapValue v = v := by
  cases v with
  | scalar s => rfl
  | vMap fs =>
      rcases hl : lookupScalar fs "string" with _ | s
      · simp [unwrapValue, hl]
      · cases s with
        | sString sv => simp [isTaggedString, hl] at h
        | sNull => simp [unwrapValue, hl]
        | sBool b => simp [unwrapValue, hl]
        | sLong i => simp [unwrapValue, hl]
        | sDouble m e => simp [unwrapValue, hl]

theorem normalizeValue_idem (k : String) (v : Value) :
    normalizeValue k (normalizeValue k v) = normalizeValue k v := by
  conv_lhs => rw [normalizeValue_eq k (normalizeValue k v)]
  rw [unwrapValue_of_not_tagged (isTaggedString_normalizeValue k v),
    normalizeValue_eq k v, coerceIfIn_idem]

/-! ### Claim theorems: normalization -/

/-- C2, counterexample: the claim says a single-entry mapping tagged with any
recognized concrete type (`"string"`, `"long"`, `"int"`, ...) is replaced by
the contained scalar, but the source (lines 74-78) only tests the `"string"`
tag: a field holding the single-entry mapping `{"long": 42}` survives
normalization as the mapping, not as the scalar `42`. -/
theorem unwrap_long_tag_cex :
    normalizeRecord [("x", Value.vMap [("long", Scalar.sLong 42)])]
        = [("x", Value.vMap [("long", Scalar.sLong 42)])] ∧
    normalizeRecord [("x", Value.vMap [("long", Scalar.sLong 42)])]
        ≠ [("x", Value.scalar (Scalar.sLong 42))] := by
  constructor <;> decide

/-- C2, amended: for every field (outside the six coerced names, whose value
is further processed by the coercion step of C3), normalization applies
exactly the unwrap rule of the source: a mapping whose `"string"` entry holds
a string is replaced by that string; a mapping with no string-valued
`"string"` entry (in particular one tagged `"long"` or `"int"`) and a value
that is already a concrete scalar are left unchanged. -/
theorem unwrap_string_tag_only (r : Record) (hn : (r.map Prod.fst).Nodup)
    (k : String) (v : Value) (hk : (k, v) ∈ r) (hnc : k ∉ coercionFields) :
    getField (normalizeRecord r) k = some (unwrapValue v) ∧
    (∀ fs sv, v = .vMap fs → lookupScalar fs "string" = some (.sString sv) →
        unwrapValue v = .scalar (.sString sv)) ∧
    (∀ fs, v = .vMap fs → (∀ sv, lookupScalar fs "string" ≠ some (.sString sv)) →
        unwrapValue v = v) ∧
    (∀ s, v = .scalar s → unwrapValue v = v) := by
  refine ⟨?_, ?_, ?_, ?_⟩
  · rw [normalizeRecord_eq_map r hn, getField_mapVals normalizeValue hn hk]
    simp [normalizeValue, hnc]
  · rintro fs sv rfl hl
    simp [unwrapValue, hl]
  · rintro fs rfl hl
    rcases hi : lookupScalar fs "string" with _ | s
    · simp [unwrapValue, hi]
    · cases s with
      | sString sv => exact absurd hi (hl sv)
      | sNull => simp [unwrapValue, hi]
      | sBool b => simp [unwrapValue, hi]
      | sLong i => simp [unwrapValue, hi]
      | sDouble m e => simp [unwrapValue, hi]
  · rintro s rfl
    rfl

theorem unwrap_string_tag_only_witness :
    getField (normalizeRecord [("x", Value.vMap [("string", Scalar.sString "a")])]) "x"
      = some (unwrapValue (Value.vMap [("string", Scalar.sString "a")])) :=
  (unwrap_string_tag_only [("x", Value.vMap [("string", Scalar.sString "a")])]
    (by decide) "x" (Value.vMap [("string", Scalar.sString "a")])
    (by decide) (by decide)).1

/-- C10: the unwrap test of the source (lines 74-78) does not require a
single-entry mapping — any mapping whose `"string"` entry holds a string is
replaced by that string, extra entries notwithstanding; a mapping with no
string-valued `"string"` entry is left as a mapping. -/
theorem unwrap_ignores_extra_entries (r : Record) (hn : (r.map Prod.fst).Nodup)
    (k : String) (fs : List (String × Scalar)) (hk : (k, Value.vMap fs) ∈ r)
    (hnc : k ∉ coercionFields) :
    (∀ sv, lookupScalar fs "string" = some (.sString sv) →
        getField (normalizeRecord r) k = some (.scalar (.sString sv))) ∧
    ((∀ sv, lookupScalar fs "string" ≠ some (.sString sv)) →
        getField (normalizeRecord r) k = some (.vMap fs)) := by
  have h := normalizeRecord_eq_map r hn
  constructor
  · intro sv hl
    rw [h, getField_mapVals normalizeValue hn hk]
    simp [normalizeValue, hnc, unwrapValue, hl]
  · intro hl
    rw [h, getField_mapVals normalizeValue hn hk]
    rcases hi : lookupScalar fs "string" with _ | s
    · simp [normalizeValue, hnc, unwrapValue, hi]
    · cases s with
      | sString sv => exact absurd hi (hl sv)
      | sNull => simp [normalizeValue, hnc, unwrapValue, hi]
      | sBool b => simp [normalizeValue, hnc, unwrapValue, hi]
      | sLong i => simp [normalizeValue, hnc, unwrapValue, hi]
      | sDouble m e => simp [normalizeValue, hnc, unwrapValue, hi]

theorem unwrap_ignores_extra_entries_witness :
    getField (normalizeRecord
        [("x", Value.vMap [("string", Scalar.sString "a"), ("extra", Scalar.sLong 7)])]) "x"
      = some (Value.scalar (Scalar.sString "a")) :=
  (unwrap_ignores_extra_entries
      [("x", Value.vMap [("string", Scalar.sString "a"), ("extra", Scalar.sLong 7)])]
      (by decide) "x" [("string", Scalar.sString "a"), ("extra", Scalar.sLong 7)]
      (by decide) (by decide)).1 "a" (by decide)

/-- C3: each of the six fields of the coercion table ends up holding the
coercion of its unwrapped value, where the coercion step replaces a string
accepted by `parseFloat` with the parsed float64, leaves a string rejected by
`parseFloat` unchanged (no error is produced), and leaves every non-string
value unchanged. -/
theorem coercion_table_fields (r : Record) (hn : (r.map Prod.fst).Nodup)
    (k : String) (v : Value) (hk : (k, v) ∈ r) (hc : k ∈ coercionFields) :
    getField (normalizeRecord r) k = some (coerceValue (unwrapValue v)) ∧
    (∀ s m e, unwrapValue v = .scalar (.sString s) → parseFloat s = some (m, e) →
        coerceValue (unwrapValue v) = .scalar (.sDouble m e)) ∧
    (∀ s, unwrapValue v = .scalar (.sString s) → parseFloat s = none →
        coerceValue (unwrapValue v) = .scalar (.sString s)) ∧
    ((∀ s, unwrapValue v ≠ .scalar (.sString s)) →
        coerceValue (unwrapValue v) = unwrapValue v) := by
  refine ⟨?_, ?_, ?_, ?_⟩
  · rw [normalizeRecord_eq_map r hn, getField_mapVals normalizeValue hn hk]
    simp [normalizeValue, hc]
  · intro s m e h1 h2
    rw [h1]
    simp [coerceValue, h2]
  · intro s h1 h2
    rw [h1]
    simp [coerceValue, h2]
  · intro h1
    rcases hw : unwrapValue v with s | fs
    · cases s with
      | sString str => exact absurd hw (h1 str)
      | sNull => rfl
      | sBool b => rfl
      | sLong i => rfl
      | sDouble m e => rfl
    · rfl

theorem coercion_table_fields_witness :
    getField (normalizeRecord [("totalSales", Value.scalar (Scalar.sString "12.5"))])
        "totalSales"
      = some (Value.scalar (Scalar.sDouble 125 (-1))) := by
  have h := coercion_table_fields
    [("totalSales", Value.scalar (Scalar.sString "12.5"))] (by decide)
    "totalSales" (Value.scalar (Scalar.sString "12.5")) (by decide) (by decide)
  rw [h.1]
  decide

/-- C4: after one normalization pass no field's value is a mapping the unwrap
rule of the source recognizes (a mapping whose `"string"` entry holds a
string), and a second normalization pass changes nothing. -/
theorem normalize_idempotent (r : Record) (hn : (r.map Prod.fst).Nodup) :
    (∀ p ∈ normalizeRecord r, isTaggedString p.2 = false) ∧
    normalizeRecord (normalizeRecord r) = normalizeRecord r := by
  constructor
  · rw [normalizeRecord_eq_map r hn]
    intro p hp
    unfold mapVals at hp
    obtain ⟨q, hq, rfl⟩ := List.mem_map.mp hp
    exact isTaggedString_normalizeValue q.1 q.2
  · have hn2 : ((normalizeRecord r).map Prod.fst).Nodup := by
      rw [normalizeRecord_fst r hn]
      exact hn
    rw [normalizeRecord_eq_map (normalizeRecord r) hn2,
      normalizeRecord_eq_map r hn, mapVals_mapVals]
    unfold mapVals
    apply List.map_congr_left
    intro p hp
    dsimp only
    rw [normalizeValue_idem p.1 p.2]

theorem normalize_idempotent_witness :
    normalizeRecord (normalizeRecord
        [("a", Value.vMap [("string", Scalar.sString "x")]),
         ("totalSales", Value.vMap [("string", Scalar.sString "3.5")])])
      = normalizeRecord
          [("a", Value.vMap [("string", Scalar.sString "x")]),
           ("totalSales", Value.vMap [("string", Scalar.sString "3.5")])] :=
  (normalize_idempotent
    [("a", Value.vMap [("string", Scalar.sString "x")]),
     ("totalSales", Value.vMap [("string", Scalar.sString "3.5")])] (by decide)).2

/-! ### Claim theorems: batching, dispatch, error handling -/

/-- C1: for a file whose scan stream decodes `N` records (`decodedRecords`),
the per-file loop dispatches exactly `N / 1000` full batches of exactly 1000
records, consecutive slices of the decoded sequence in append order,
followed by one dispatch of the `N % 1000` remaining records when
`N % 1000 ≠ 0` and by nothing otherwise — whatever the HTTP transport
answers. -/
theorem batching_dispatch_schedule (send : List Char → HTTPOutcome)
    (items : List ScanItem) :
    (processFile send items []).map Prod.fst =
      ((List.range ((decodedRecords items).length / 1000)).map fun i =>
          ((decodedRecords items).drop (1000 * i)).take 1000)
        ++ (if (decodedRecords items).length % 1000 = 0 then []
            else [(decodedRecords items).drop
                    (1000 * ((decodedRecords items).length / 1000))]) ∧
    (∀ i, i < (decodedRecords items).length / 1000 →
        (((decodedRecords items).drop (1000 * i)).take 1000).length = 1000) ∧
    ((decodedRecords items).length % 1000 ≠ 0 →
        ((decodedRecords items).drop
            (1000 * ((decodedRecords items).length / 1000))).length
          = (decodedRecords items).length % 1000) := by
  refine ⟨?_, ?_, ?_⟩
  · rw [processFile_batches send items [] (by simp), List.nil_append,
      chunks1000_closed]
  · intro i hi
    simp only [List.length_take, List.length_drop]
    omega
  · intro h
    simp only [List.length_drop]
    omega

theorem batching_dispatch_schedule_witness :
    (processFile (fun _ => HTTPOutcome.response 200 "200 OK")
        [ScanItem.record [("a", Value.scalar (Scalar.sLong 1))], ScanItem.readErr,
         ScanItem.record [("b", Value.scalar (Scalar.sLong 2))]] []).map Prod.fst =
      [[normalizeRecord [("a", Value.scalar (Scalar.sLong 1))],
        normalizeRecord [("b", Value.scalar (Scalar.sLong 2))]]] := by
  rw [(batching_dispatch_schedule (fun _ => HTTPOutcome.response 200 "200 OK")
    [ScanItem.record [("a", Value.scalar (Scalar.sLong 1))], ScanItem.readErr,
     ScanItem.record [("b", Value.scalar (Scalar.sLong 2))]]).1]
  rfl

/-- C6: the dispatcher succeeds exactly when the transport returns a 200
response; a transport failure and a non-200 status are returned as error
values carrying the cause, resp. the status text (and `processFile` shows
the batch is dispatched exactly once — no retry). -/
theorem dispatch_success_iff_200 (send : List Char → HTTPOutcome)
    (batchData : List Record) :
    (indexBatchToOpenSearch send batchData = .ok ()
        ↔ ∃ st, send (renderBatch batchData) = .response 200 st) ∧
    (∀ msg, send (renderBatch batchData) = .transportErr msg →
        indexBatchToOpenSearch send batchData
          = .error ("error sending bulk request to OpenSearch: " ++ msg)) ∧
    (∀ status st, send (renderBatch batchData) = .response status st →
        status ≠ 200 →
        indexBatchToOpenSearch send batchData
          = .error ("error response from OpenSearch: " ++ st)) := by
  unfold indexBatchToOpenSearch
  rcases h : send (renderBatch batchData) with msg | ⟨status, st⟩
  · refine ⟨?_, ?_, ?_⟩
    · simp [classifyDispatch]
    · intro m hm
      injection hm with h1
      rw [h1]
      rfl
    · intro status st hst
      simp at hst
  · refine ⟨?_, ?_, ?_⟩
    · by_cases h200 : status = 200
      · subst h200
        simp [classifyDispatch]
      · simp [classifyDispatch, h200]
    · intro m hm
      simp at hm
    · intro status' st' hst hne
      injection hst with h1 h2
      subst h1
      subst h2
      simp [classifyDispatch, hne]

theorem dispatch_success_iff_200_witness :
    indexBatchToOpenSearch (fun _ => HTTPOutcome.response 500 "500 Internal Server Error") []
      = .error ("error response from OpenSearch: " ++ "500 Internal Server Error") :=
  (dispatch_success_iff_200
      (fun _ => HTTPOutcome.response 500 "500 Internal Server Error") []).2.2
    500 "500 Internal Server Error" rfl (by decide)

/-- C7: a fetch failure or an OCF-reader failure on any upload-event record
makes the handler return at once: nothing is dispatched for the failing
record (no partial batch), and the upload-event records after it are not
processed — the invocation's dispatches are exactly those of the preceding
events. -/
theorem fatal_file_error_aborts (send : List Char → HTTPOutcome)
    (pre post : List FileEvent) (e : FileEvent)
    (he : e = .fetchErr ∨ e = .ocfErr) :
    HandleRequest send (pre ++ e :: post) = HandleRequest send pre := by
  induction pre with
  | nil => rcases he with rfl | rfl <;> rfl
  | cons f pre ih =>
      cases f with
      | fetchErr => rfl
      | ocfErr => rfl
      | file items =>
          exact congrArg (processFile send items [] ++ ·) ih

theorem fatal_file_error_aborts_witness :
    HandleRequest (fun _ => HTTPOutcome.response 200 "200 OK")
        [FileEvent.file [ScanItem.record [("a", Value.scalar (Scalar.sLong 1))]],
         FileEvent.fetchErr,
         FileEvent.file [ScanItem.record [("b", Value.scalar (Scalar.sLong 2))]]]
      = HandleRequest (fun _ => HTTPOutcome.response 200 "200 OK")
          [FileEvent.file [ScanItem.record [("a", Value.scalar (Scalar.sLong 1))]]] :=
  fatal_file_error_aborts (fun _ => HTTPOutcome.response 200 "200 OK")
    [FileEvent.file [ScanItem.record [("a", Value.scalar (Scalar.sLong 1))]]]
    [FileEvent.file [ScanItem.record [("b", Value.scalar (Scalar.sLong 2))]]]
    FileEvent.fetchErr (Or.inl rfl)

/-- C8: the dispatched batch sequence of a whole invocation is the same for
every transport behavior — a failed dispatch (non-200 or transport error)
never halts the pipeline, later records, batches and upload-event records
are processed identically, and each batch is dispatched exactly once (no
batch is re-sent). -/
theorem dispatch_failure_does_not_halt (send send' : List Char → HTTPOutcome)
    (events : List FileEvent) :
    (HandleRequest send events).map Prod.fst
      = (HandleRequest send' events).map Prod.fst := by
  induction events with
  | nil => rfl
  | cons f rest ih =>
      cases f with
      | fetchErr => rfl
      | ocfErr => rfl
      | file items =>
          show (processFile send items [] ++ _).map Prod.fst
            = (processFile send' items [] ++ _).map Prod.fst
          rw [List.map_append, List.map_append, ih,
            processFile_batches send items [] (by simp),
            processFile_batches send' items [] (by simp)]

/-- C9: a record that fails to decode (`ocfr.Read()` error) or whose datum is
not a field-mapping (failed type assertion) is skipped: the loop neither
appends it to the batch nor stops — the dispatch behavior equals that of the
stream with the malformed record removed. -/
theorem malformed_record_skipped (send : List Char → HTTPOutcome)
    (pre post : List ScanItem) (i : ScanItem) (b : List Record)
    (hi : i = .readErr ∨ i = .nonRecord) :
    processFile send (pre ++ i :: post) b = processFile send (pre ++ post) b := by
  induction pre generalizing b with
  | nil => rcases hi with rfl | rfl <;> rfl
  | cons j pre ih =>
      cases j with
      | readErr =>
          show processFile send (pre ++ i :: post) b = processFile send (pre ++ post) b
          exact ih b
      | nonRecord =>
          show processFile send (pre ++ i :: post) b = processFile send (pre ++ post) b
          exact ih b
      | record r =>
          rw [List.cons_append, List.cons_append]
          simp only [processFile]
          by_cases h1 : 1000 ≤ (b ++ [normalizeRecord r]).length
          · rw [if_pos h1, if_pos h1, ih []]
          · rw [if_neg h1, if_neg h1]
            exact ih (b ++ [normalizeRecord r])

theorem malformed_record_skipped_witness :
    processFile (fun _ => HTTPOutcome.response 200 "200 OK")
        ([ScanItem.record [("a", Value.scalar (Scalar.sLong 1))]] ++ ScanItem.readErr
          :: [ScanItem.record [("b", Value.scalar (Scalar.sLong 2))]]) []
      = processFile (fun _ => HTTPOutcome.response 200 "200 OK")
          ([ScanItem.record [("a", Value.scalar (Scalar.sLong 1))]]
            ++ [ScanItem.record [("b", Value.scalar (Scalar.sLong 2))]]) [] :=
  malformed_record_skipped (fun _ => HTTPOutcome.response 200 "200 OK")
    [ScanItem.record [("a", Value.scalar (Scalar.sLong 1))]]
    [ScanItem.record [("b", Value.scalar (Scalar.sLong 2))]]
    ScanItem.readErr [] (Or.inl rfl)

/-! ### The rendered payload is newline-framed: encoder lines contain no
newline -/

theorem digitChar_ne_nl (d : Nat) : digitChar d ≠ '\n' := by
  unfold digitChar
  split <;> decide

theorem natToChars_no_nl (n : Nat) : ∀ c ∈ natToChars n, c ≠ '\n' := by
  induction n using Nat.strong_induction_on with
  | _ n ih =>
      rw [natToChars]
      split
      · intro c hc
        rw [List.mem_singleton] at hc
        subst hc
        exact digitChar_ne_nl n
      · intro c hc
        rcases List.mem_append.mp hc with h | h
        · exact ih (n / 10) (Nat.div_lt_self (by omega) (by omega)) c h
        · rw [List.mem_singleton] at h
          subst h
          exact digitChar_ne_nl _

theorem intToChars_no_nl (i : Int) : ∀ c ∈ intToChars i, c ≠ '\n' := by
  unfold intToChars
  split
  · intro c hc
    rcases List.mem_cons.mp hc with rfl | h
    · decide
    · exact natToChars_no_nl _ c h
  · exact natToChars_no_nl _

theorem escapeChar_no_nl (c : Char) : ∀ c' ∈ escapeChar c, c' ≠ '\n' := by
  unfold escapeChar
  split_ifs with h1 h2 h3 h4 h5 h6 <;> intro c' hc'
  · rcases List.mem_cons.mp hc' with rfl | hc'
    · decide
    · rw [List.mem_singleton] at hc'; subst hc'; decide
  · rcases List.mem_cons.mp hc' with rfl | hc'
    · decide
    · rw [List.mem_singleton] at hc'; subst hc'; decide
  · rcases List.mem_cons.mp hc' with rfl | hc'
    · decide
    · rw [List.mem_singleton] at hc'; subst hc'; decide
  · rcases List.mem_cons.mp hc' with rfl | hc'
    · decide
    · rw [List.mem_singleton] at hc'; subst hc'; decide
  · rcases List.mem_cons.mp hc' with rfl | hc'
    · decide
    · rw [List.mem_singleton] at hc'; subst hc'; decide
  · rcases List.mem_cons.mp hc' with rfl | hc'
    · decide
    rcases List.mem_cons.mp hc' with rfl | hc'
    · decide
    rcases List.mem_cons.mp hc' with rfl | hc'
    · decide
    rcases List.mem_cons.mp hc' with rfl | hc'
    · decide
    rcases List.mem_cons.mp hc' with rfl | hc'
    · exact digitChar_ne_nl _
    rw [List.mem_singleton] at hc'
    subst hc'
    exact digitChar_ne_nl _
  · rw [List.mem_singleton] at hc'
    subst hc'
    exact h3

theorem quoteString_no_nl (s : String) : ∀ c ∈ quoteString s, c ≠ '\n' := by
  unfold quoteString
  intro c hc
  rcases List.mem_cons.mp hc with rfl | hc
  · decide
  rcases List.mem_append.mp hc with h | h
  · obtain ⟨l, hl, hcl⟩ := List.mem_flatten.mp h
    obtain ⟨c0, _, rfl⟩ := List.mem_map.mp hl
    exact escapeChar_no_nl c0 c hcl
  · rw [List.mem_singleton] at h
    subst h
    decide

theorem encodeScalar_no_nl (s : Scalar) : ∀ c ∈ encodeScalar s, c ≠ '\n' := by
  cases s with
  | sNull => decide
  | sBool b => cases b <;> decide
  | sLong i => exact intToChars_no_nl i
  | sDouble m e =>
      intro c hc
      rcases List.mem_append.mp hc with h | h
      · exact intToChars_no_nl m c h
      · rcases List.mem_cons.mp h with rfl | h
        · decide
        · exact intToChars_no_nl e c h
  | sString str => exact quoteString_no_nl str

theorem encodeScalarFields_no_nl (fs : List (String × Scalar)) :
    ∀ c ∈ encodeScalarFields fs, c ≠ '\n' := by
  induction fs with
  | nil => intro c hc; simp [encodeScalarFields] at hc
  | cons p rest ih =>
      obtain ⟨k, s⟩ := p
      cases rest with
      | nil =>
          intro c hc
          simp only [encodeScalarFields] at hc
          rcases List.mem_append.mp hc with h | h
          · exact quoteString_no_nl k c h
          · rcases List.mem_cons.mp h with rfl | h
            · decide
            · exact encodeScalar_no_nl s c h
      | cons q rest' =>
          intro c hc
          simp only [encodeScalarFields] at hc
          rcases List.mem_append.mp hc with h | h
          · rcases List.mem_append.mp h with h' | h'
            · exact quoteString_no_nl k c h'
            · rcases List.mem_cons.mp h' with rfl | h'
              · decide
              · exact encodeScalar_no_nl s c h'
          · rcases List.mem_cons.mp h with rfl | h
            · decide
            · exact ih c h

theorem encodeValue_no_nl (v : Value) : ∀ c ∈ encodeValue v, c ≠ '\n' := by
  cases v with
  | scalar s => exact encodeScalar_no_nl s
  | vMap fs =>
      intro c hc
      rcases List.mem_cons.mp hc with rfl | hc
      · decide
      rcases List.mem_append.mp hc with h | h
      · exact encodeScalarFields_no_nl fs c h
      · rw [List.mem_singleton] at h
        subst h
        decide

theorem encodeRecordFields_no_nl (r : List (String × Value)) :
    ∀ c ∈ encodeRecordFields r, c ≠ '\n' := by
  induction r with
  | nil => intro c hc; simp [encodeRecordFields] at hc
  | cons p rest ih =>
      obtain ⟨k, v⟩ := p
      cases rest with
      | nil =>
          intro c hc
          simp only [encodeRecordFields] at hc
          rcases List.mem_append.mp hc with h | h
          · exact quoteString_no_nl k c h
          · rcases List.mem_cons.mp h with rfl | h
            · decide
            · exact encodeValue_no_nl v c h
      | cons q rest' =>
          intro c hc
          simp only [encodeRecordFields] at hc
          rcases List.mem_append.mp hc with h | h
          · rcases List.mem_append.mp h with h' | h'
            · exact quoteString_no_nl k c h'
            · rcases List.mem_cons.mp h' with rfl | h'
              · decide
              · exact encodeValue_no_nl v c h'
          · rcases List.mem_cons.mp h with rfl | h
            · decide
            · exact ih c h

theorem encodeRecord_no_nl (r : Record) : ∀ c ∈ encodeRecord r, c ≠ '\n' := by
  unfold encodeRecord
  intro c hc
  rcases List.mem_cons.mp hc with rfl | hc
  · decide
  rcases List.mem_append.mp hc with h | h
  · exact encodeRecordFields_no_nl r c h
  · rw [List.mem_singleton] at h
    subst h
    decide

theorem metaLine_no_nl : ∀ c ∈ metaLine, c ≠ '\n' :=
  encodeRecord_no_nl [("index", .vMap [("_index", .sString "live")])]

/-! ### Line structure of the rendered payload -/

theorem splitNL_append_nl (xs ys : List Char) (h : ∀ c ∈ xs, c ≠ '\n') :
    splitNL (xs ++ '\n' :: ys) = xs :: splitNL ys := by
  induction xs with
  | nil => simp [splitNL]
  | cons c xs ih =>
      have hc : c ≠ '\n' := h c (List.mem_cons_self c xs)
      rw [List.cons_append]
      simp only [splitNL, if_neg hc]
      rw [ih fun c' hc' => h c' (List.mem_cons_of_mem c hc')]

theorem renderBatch_eq_flatten (batch : List Record) :
    renderBatch batch
      = (batch.map fun r => metaLine ++ '\n' :: encodeRecord r ++ ['\n']).flatten := by
  have haux : ∀ (bs : List Record) (buf : List Char),
      bs.foldl (fun buf r => buf ++ metaLine ++ '\n' :: encodeRecord r ++ ['\n']) buf
        = buf ++ (bs.map fun r => metaLine ++ '\n' :: encodeRecord r ++ ['\n']).flatten := by
    intro bs
    induction bs with
    | nil => intro buf; simp
    | cons r rest ih =>
        intro buf
        rw [List.foldl_cons, ih]
        simp
  rw [renderBatch, haux, List.nil_append]

/-- C5: the bulk payload renders as line pairs: splitting the payload of a
batch at newlines yields, for each record in batch (append) order, the
action-descriptor line then the record's document line, each a single line
(the compact encodings contain no newline), with a trailing newline after
the final pair (the final empty fragment); in particular there are exactly
`2 * batch.length` lines before the trailing newline. -/
theorem render_bulk_payload_lines (batch : List Record) :
    splitNL (renderBatch batch)
      = (batch.map fun r => [metaLine, encodeRecord r]).flatten ++ [[]] ∧
    (splitNL (renderBatch batch)).length = 2 * batch.length + 1 := by
  have h1 : splitNL (renderBatch batch)
      = (batch.map fun r => [metaLine, encodeRecord r]).flatten ++ [[]] := by
    rw [renderBatch_eq_flatten]
    induction batch with
    | nil => rfl
    | cons r rest ih =>
        simp only [List.map_cons, List.flatten_cons]
        have hsh : (metaLine ++ '\n' :: encodeRecord r ++ ['\n'])
              ++ (rest.map fun r => metaLine ++ '\n' :: encodeRecord r ++ ['\n']).flatten
            = metaLine ++ '\n' :: (encodeRecord r ++ '\n' ::
                (rest.map fun r => metaLine ++ '\n' :: encodeRecord r ++ ['\n']).flatten) := by
          simp
        rw [hsh, splitNL_append_nl _ _ metaLine_no_nl,
          splitNL_append_nl _ _ (encodeRecord_no_nl r), ih]
        rfl
  refine ⟨h1, ?_⟩
  rw [h1]
  have h2 : ∀ bs : List Record,
      ((bs.map fun r => [metaLine, encodeRecord r]).flatten).length = 2 * bs.length := by
    intro bs
    induction bs with
    | nil => rfl
    | cons r rest ih =>
        simp only [List.map_cons, List.flatten_cons, List.length_append, ih,
          List.length_cons, List.length_nil]
        omega
  rw [List.length_append, h2]
  rfl

end OpenSearchProducts
